import Mathlib

/-!
Verification development for the context-syncer repository: a shallow
embedding of its path codec (`src/utils.ts`), log parser, metadata builder,
staleness check, debounce scheduler and single-file sync engine
(`src/syncer.ts`), together with theorems settling the specification's
claims about them.  Filesystem state is explicit (`FileSys`), machine
numbers are `Int`/`Nat`, and the platform's JSON codec is an explicit
parameter of the sync environment.
-/

/-! ## JavaScript string primitives (models of the platform operations
used by `src/utils.ts`) -/

/-- Characters matched by the JavaScript regular-expression class `\s`
(ASCII whitespace, NBSP, the Unicode space separators, LS, PS and BOM),
which is also the set trimmed by `String.prototype.trim`. -/
def jsWhitespace (c : Char) : Bool :=
  c = ' ' || c = '\t' || c = '\n' || c = '\r' ||
  c.val = 11 || c.val = 12 || c.val = 0xa0 || c.val = 0x1680 ||
  (0x2000 ≤ c.val && c.val ≤ 0x200a) ||
  c.val = 0x2028 || c.val = 0x2029 || c.val = 0x202f ||
  c.val = 0x205f || c.val = 0x3000 || c.val = 0xfeff

/-- The characters the sanitizer replaces: the class `[<>:"|?*]` in
`sanitizeFileName` (utils.ts line 103). -/
def isIllegalChar (c : Char) : Bool :=
  c = '<' || c = '>' || c = ':' || c = '"' || c = '|' || c = '?' || c = '*'

/-- `sanitizeFileName`'s first step: `.replace(/[<>:"|?*]/g, '-')`. -/
def replaceIllegal (c : Char) : Char :=
  if isIllegalChar c then '-' else c

/-- `.replace(/\s+/g, ' ')`: each maximal run of whitespace becomes one
space.  The flag records whether the previous character was part of a
whitespace run already emitted as `' '`. -/
def collapseWSAux (prevWS : Bool) : List Char → List Char
  | [] => []
  | c :: rest =>
    if jsWhitespace c then
      if prevWS then collapseWSAux true rest
      else ' ' :: collapseWSAux true rest
    else c :: collapseWSAux false rest

/-- Remove the trailing whitespace run (the tail half of
`String.prototype.trim`). -/
def dropTrailingWS : List Char → List Char
  | [] => []
  | c :: rest =>
    match dropTrailingWS rest with
    | [] => if jsWhitespace c then [] else [c]
    | r => c :: r

/-- Model of `String.prototype.trim`: strip the leading and trailing
whitespace runs. -/
def jsTrimChars (l : List Char) : List Char :=
  dropTrailingWS (l.dropWhile jsWhitespace)

/-- Model of `String.prototype.trim` on strings. -/
def jsTrim (s : String) : String :=
  ⟨jsTrimChars s.data⟩

/-- Whether the first character is whitespace. -/
def headIsWS : List Char → Bool
  | [] => false
  | c :: _ => jsWhitespace c

/-- Whether the last character is whitespace. -/
def lastIsWS : List Char → Bool
  | [] => false
  | [c] => jsWhitespace c
  | _ :: c :: rest => lastIsWS (c :: rest)

/-- `sanitizeFileName` (utils.ts lines 101-107) on character lists:
replace the illegal characters with `-`, collapse whitespace runs to a
single space, trim, and truncate to 255 characters
(`.substring(0, 255)`; the model counts code points rather than UTF-16
code units, which agree on all characters below U+10000). -/
def sanitizeChars (l : List Char) : List Char :=
  (jsTrimChars (collapseWSAux false (l.map replaceIllegal))).take 255

/-- `sanitizeFileName` from utils.ts. -/
def sanitizeFileName (name : String) : String :=
  ⟨sanitizeChars name.data⟩

/-! ## Percent decoding (model of `decodeURIComponent`) and
`decodeProjectName` from utils.ts -/

/-- Value of one hexadecimal digit, if any. -/
def hexDigit (c : Char) : Option Nat :=
  if '0' ≤ c ∧ c ≤ '9' then some (c.toNat - '0'.toNat)
  else if 'a' ≤ c ∧ c ≤ 'f' then some (c.toNat - 'a'.toNat + 10)
  else if 'A' ≤ c ∧ c ≤ 'F' then some (c.toNat - 'A'.toNat + 10)
  else none

/-- One item of a percent-encoded string: a literal character, or a byte
written as a `%XX` escape. -/
inductive PctTok where
  | raw (c : Char)
  | byte (b : Nat)
deriving DecidableEq

/-- Split a string into literal characters and `%XX` escape bytes;
fails (like `decodeURIComponent`) when a `%` is not followed by two hex
digits. -/
def pctTokens : List Char → Option (List PctTok)
  | [] => some []
  | '%' :: h1 :: h2 :: rest =>
    match hexDigit h1, hexDigit h2 with
    | some a, some b => (pctTokens rest).map (PctTok.byte (16 * a + b) :: ·)
    | _, _ => none
  | '%' :: _ => none
  | c :: rest => (pctTokens rest).map (PctTok.raw c :: ·)

/-- Is `b` a UTF-8 continuation byte (`0x80`-`0xbf`)? -/
def isContByte (b : Nat) : Bool :=
  0x80 ≤ b && b ≤ 0xbf

/-- Decode the escape bytes as strict UTF-8 (RFC 3629 ranges, as the
ECMAScript `Decode` operation requires); any invalid sequence fails,
which `decodeURIComponent` surfaces as a thrown `URIError`.  Code points
above U+FFFF become one `Char` here rather than a surrogate pair. -/
def utf8Assemble : List PctTok → Option (List Char)
  | [] => some []
  | PctTok.raw c :: rest => (utf8Assemble rest).map (c :: ·)
  | PctTok.byte b1 :: rest =>
    if b1 ≤ 0x7f then
      (utf8Assemble rest).map (Char.ofNat b1 :: ·)
    else if 0xc2 ≤ b1 ∧ b1 ≤ 0xdf then
      match rest with
      | PctTok.byte b2 :: rest2 =>
        if isContByte b2 then
          (utf8Assemble rest2).map
            (Char.ofNat ((b1 - 0xc0) * 64 + (b2 - 0x80)) :: ·)
        else none
      | _ => none
    else if 0xe0 ≤ b1 ∧ b1 ≤ 0xef then
      match rest with
      | PctTok.byte b2 :: PctTok.byte b3 :: rest2 =>
        if ((if b1 = 0xe0 then 0xa0 else 0x80) ≤ b2 &&
            b2 ≤ (if b1 = 0xed then 0x9f else 0xbf)) && isContByte b3 then
          (utf8Assemble rest2).map
            (Char.ofNat ((b1 - 0xe0) * 4096 + (b2 - 0x80) * 64 + (b3 - 0x80)) :: ·)
        else none
      | _ => none
    else if 0xf0 ≤ b1 ∧ b1 ≤ 0xf4 then
      match rest with
      | PctTok.byte b2 :: PctTok.byte b3 :: PctTok.byte b4 :: rest2 =>
        if ((if b1 = 0xf0 then 0x90 else 0x80) ≤ b2 &&
            b2 ≤ (if b1 = 0xf4 then 0x8f else 0xbf)) &&
           isContByte b3 && isContByte b4 then
          (utf8Assemble rest2).map
            (Char.ofNat ((b1 - 0xf0) * 262144 + (b2 - 0x80) * 4096 +
                         (b3 - 0x80) * 64 + (b4 - 0x80)) :: ·)
        else none
      | _ => none
    else none

/-- Model of `decodeURIComponent`: `none` models a thrown `URIError`. -/
def decodeURIComponentOpt (l : List Char) : Option (List Char) :=
  (pctTokens l).bind utf8Assemble

/-- A path-separator character, the class `[/\\]` used by
`decodeProjectName`'s two regular expressions. -/
def isPathSep (c : Char) : Bool :=
  c = '/' || c = '\\'

/-- `.replace(/[/\\]+/g, ' - ')`: each maximal run of path separators
becomes the three characters `" - "`.  The flag records whether the run
currently being read has already emitted its replacement. -/
def sepRunsAux (prevSep : Bool) : List Char → List Char
  | [] => []
  | c :: rest =>
    if isPathSep c then
      if prevSep then sepRunsAux true rest
      else ' ' :: '-' :: ' ' :: sepRunsAux true rest
    else c :: sepRunsAux false rest

/-- `decodeProjectName` (utils.ts lines 49-66): percent-decode, strip
leading separators (`.replace(/^[/\\]+/, '')`), replace separator runs
with `" - "`, fall back to the sentinel when empty, and on a decode
failure (the `catch`) return the encoded input unchanged. -/
def decodeProjectName (encoded : String) : String :=
  match decodeURIComponentOpt encoded.data with
  | none => encoded
  | some decoded =>
    let cleaned := sepRunsAux false (decoded.dropWhile isPathSep)
    if cleaned.isEmpty then "Unknown Project" else ⟨cleaned⟩

/-! ## Path functions (POSIX model of Node's `path` module, `path.sep = "/"`)
and the path codec from utils.ts -/

/-- Split on `'/'`, like `String.splitOn "/"` (written structurally so
that it evaluates inside the kernel). -/
def splitOnSlashAux (acc : List Char) : List Char → List String
  | [] => [⟨acc.reverse⟩]
  | '/' :: rest => ⟨acc.reverse⟩ :: splitOnSlashAux [] rest
  | c :: rest => splitOnSlashAux (c :: acc) rest

/-- `s.split(path.sep)` for `path.sep = "/"`. -/
def splitOnSlash (s : String) : List String :=
  splitOnSlashAux [] s.data

/-- One step of Node's path normalization: skip empty and `.` segments,
resolve `..` against the stack (kept most-recent-first), otherwise push.
Leading `..` segments survive in relative paths and vanish in absolute
ones. -/
def normSegStep (isAbs : Bool) (stack : List String) (seg : String) : List String :=
  if seg = "" then stack
  else if seg = "." then stack
  else if seg = ".." then
    match stack with
    | [] => if isAbs then [] else [".."]
    | top :: rest => if top = ".." then ".." :: stack else rest
  else seg :: stack

/-- Model of `path.normalize` (POSIX): resolve `.`, `..` and duplicate
separators, keeping a leading `/` and a trailing `/`. -/
def pathNormalize (p : String) : String :=
  if p = "" then "." else
  let isAbs := p.data.head? = some '/'
  let hasTrail := p.data.getLast? = some '/'
  let body := String.intercalate "/" (((splitOnSlash p).foldl (normSegStep isAbs) []).reverse)
  if body = "" then
    if isAbs then "/" else if hasTrail then "./" else "."
  else
    (if isAbs then "/" ++ body else body) ++ (if hasTrail then "/" else "")

/-- Join the already-filtered segments with `/`. -/
def joinSegs : List String → String
  | [] => ""
  | [p] => p
  | p :: q :: rest => p ++ "/" ++ joinSegs (q :: rest)

/-- Model of `path.join` (POSIX): drop empty segments, join with `/`,
and return `"."` when nothing remains.  (Node also normalizes the joined
string; normalization never turns a non-empty path into an empty one,
and the paths the syncer joins contain no `.`/`..` segments, so it is
omitted here.) -/
def pathJoin (parts : List String) : String :=
  let j := joinSegs (parts.filter (fun s => s ≠ ""))
  if j = "" then "." else j

/-- Model of `String.prototype.replace` with a plain-string pattern:
replace the first occurrence only. -/
def replaceFirstChars (pat repl : List Char) : List Char → List Char
  | [] => if pat = [] then repl else []
  | c :: rest =>
    if pat.isPrefixOf (c :: rest) then repl ++ (c :: rest).drop pat.length
    else c :: replaceFirstChars pat repl rest

/-- `fileName.replace('.jsonl', '')` and friends. -/
def replaceFirst (s pat repl : String) : String :=
  ⟨replaceFirstChars pat.data repl.data s.data⟩

/-- `ParsedClaudePath` from types.ts. -/
structure ParsedClaudePath where
  projectsDir : String
  encodedProjectName : String
  decodedProjectName : String
  sessionId : String
  fullPath : String
deriving DecidableEq

/-- `parseClaudePath` (utils.ts lines 18-41): normalize, split on the
separator, and read the filename, its parent directory (the encoded
project name) and everything above it.  With fewer than two segments,
JavaScript indexing yields `undefined`; the model reads `""` there (the
function's contract requires well-formed inputs). -/
def parseClaudePath (filePath : String) : ParsedClaudePath :=
  let normalized := pathNormalize filePath
  let parts := splitOnSlash normalized
  let fileName := (parts.getLast?).getD ""
  let encodedProjectName := (parts.get? (parts.length - 2)).getD ""
  let projectsDir := String.intercalate "/" (parts.take (parts.length - 2))
  let sessionId := replaceFirst fileName ".jsonl" ""
  { projectsDir := projectsDir
    encodedProjectName := encodedProjectName
    decodedProjectName := decodeProjectName encodedProjectName
    sessionId := sessionId
    fullPath := normalized }

/-- `TargetPaths` from types.ts. -/
structure TargetPaths where
  projectDir : String
  jsonlFile : String
  metaFile : String
deriving DecidableEq

/-- `getTargetPaths` (utils.ts lines 75-93).  `vaultBasePath` stands for
`(vault.adapter as any).basePath`. -/
def getTargetPaths (vaultBasePath storagePath : String)
    (parsedPath : ParsedClaudePath) : TargetPaths :=
  let sanitizedProjectName := sanitizeFileName parsedPath.decodedProjectName
  let projectDir := pathJoin [vaultBasePath, storagePath, sanitizedProjectName]
  { projectDir := projectDir
    jsonlFile := pathJoin [projectDir, parsedPath.sessionId ++ ".jsonl"]
    metaFile := pathJoin [projectDir, parsedPath.sessionId ++ ".meta.json"] }

/-! ## Data model (types.ts) -/

/-- `ClaudeMessage` from types.ts: one parsed JSONL line.  Only the
fields the syncer reads are modelled; `timestamp`, `gitBranch` and
`version` are optional because the code guards against their absence
(`undefined`/`null`) even though the interface declares `timestamp`
required. -/
structure ClaudeMessage where
  type : String
  uuid : String
  sessionId : String
  timestamp : Option Int
  gitBranch : Option String
  version : Option String
deriving DecidableEq

/-- `SessionMetadata` from types.ts: the sidecar record. -/
structure SessionMetadata where
  sessionId : String
  projectName : String
  projectPath : String
  messageCount : Nat
  firstTimestamp : Int
  lastTimestamp : Int
  gitBranch : Option String
  version : Option String
  syncedAt : Int
  sourceFilePath : String
deriving DecidableEq

/-- The `action` tag of a `SyncResult`. -/
inductive SyncAction where
  | created
  | updated
  | skipped
  | error
deriving DecidableEq

/-- `SyncResult` from types.ts (the `error` detail field is summarized
by `message`). -/
structure SyncResult where
  success : Bool
  sessionId : String
  projectName : String
  action : SyncAction
  message : Option String
deriving DecidableEq

/-! ## Filesystem and environment model -/

/-- Explicit filesystem state: file contents (as Unicode text, the form
in which the syncer reads and writes every file with encoding `utf-8`)
and modification times (`mtimeMs`). -/
structure FileSys where
  contents : String → Option String
  mtime : String → Option Int

/-- Overwrite one file, stamping its modification time `now`. -/
def fsWrite (fs : FileSys) (p : String) (c : String) (now : Int) : FileSys :=
  { contents := fun q => if q = p then some c else fs.contents q
    mtime := fun q => if q = p then some now else fs.mtime q }

/-- A recorded filesystem operation, for observing what a sync touched. -/
inductive FsOp where
  | access (p : String)
  | read (p : String)
  | stat (p : String)
  | mkdir (p : String)
  | write (p : String)
deriving DecidableEq

/-- Ambient environment of a sync: the two settings the engine reads,
the platform JSON codec (`JSON.parse` for a sidecar, `JSON.parse` for a
log line, `JSON.stringify(·, null, 2)` for the sidecar) and the clock
(`Date.now()`). -/
structure SyncEnv where
  vaultBasePath : String
  obsidianStoragePath : String
  parseMeta : String → Option SessionMetadata
  parseLine : String → Option ClaudeMessage
  stringifyMeta : SessionMetadata → String
  now : Int

/-! ## Log parser, metadata builder and staleness check (syncer.ts) -/

/-- Split text into lines the way `readline` with `crlfDelay: Infinity`
does: LF, CRLF and CR all end a line.  (After a terminating final
newline the model yields one extra empty line, which every caller
skips as blank.) -/
def splitLinesAux (acc : List Char) : List Char → List String
  | [] => [⟨acc.reverse⟩]
  | '\r' :: '\n' :: rest => ⟨acc.reverse⟩ :: splitLinesAux [] rest
  | '\r' :: rest => ⟨acc.reverse⟩ :: splitLinesAux [] rest
  | '\n' :: rest => ⟨acc.reverse⟩ :: splitLinesAux [] rest
  | c :: rest => splitLinesAux (c :: acc) rest

/-- Lines of a file's content. -/
def splitLines (s : String) : List String :=
  splitLinesAux [] s.data

/-- The loop body of `parseJsonlFile` (syncer.ts lines 366-381): skip
blank lines, parse the rest, and skip (never abort on) lines that fail
to parse. -/
def parseJsonlLines (parseLine : String → Option ClaudeMessage)
    (lines : List String) : List ClaudeMessage :=
  lines.filterMap (fun line => if jsTrim line = "" then none else parseLine line)

/-- `parseJsonlFile` (syncer.ts lines 356-388) given the file's content. -/
def parseJsonlFile (parseLine : String → Option ClaudeMessage)
    (content : String) : List ClaudeMessage :=
  parseJsonlLines parseLine (splitLines content)

/-- JavaScript truthiness of an optional string (`''`, `undefined` and
`null` are falsy), as used by `messages.find(m => m.gitBranch)`. -/
def truthyStr : Option String → Bool
  | some s => s ≠ ""
  | none => false

/-- Fold a list of timestamps to `Math.min(...timestamps)`. -/
def listMin : Int → List Int → Int
  | t, [] => t
  | t, u :: rest => listMin (min t u) rest

/-- Fold a list of timestamps to `Math.max(...timestamps)`. -/
def listMax : Int → List Int → Int
  | t, [] => t
  | t, u :: rest => listMax (max t u) rest

/-- `generateMetadata` (syncer.ts lines 397-423). -/
def generateMetadata (messages : List ClaudeMessage) (sourcePath : String)
    (parsedPath : ParsedClaudePath) (now : Int) : SessionMetadata :=
  let timestamps := messages.filterMap (fun m => m.timestamp)
  { sessionId := parsedPath.sessionId
    projectName := parsedPath.decodedProjectName
    projectPath := parsedPath.encodedProjectName
    messageCount := messages.length
    firstTimestamp := match timestamps with
      | [] => now
      | t :: rest => listMin t rest
    lastTimestamp := match timestamps with
      | [] => now
      | t :: rest => listMax t rest
    gitBranch := ((messages.find? (fun m => truthyStr m.gitBranch)).bind
      (fun m => m.gitBranch))
    version := ((messages.find? (fun m => truthyStr m.version)).bind
      (fun m => m.version))
    syncedAt := now
    sourceFilePath := sourcePath }

/-- `shouldSync` (syncer.ts lines 325-349), together with the trace of
filesystem operations it performs.  Every failure path of the `try`
block ends in `true`: a missing sidecar (`fs.access` throws `ENOENT`),
an unparsable sidecar (`JSON.parse` throws), and a failing
`fs.stat` on the source are all caught and answered with `true`. -/
def shouldSyncT (parseMeta : String → Option SessionMetadata) (fs : FileSys)
    (sourcePath metaFilePath : String) : Bool × List FsOp :=
  match fs.contents metaFilePath with
  | none => (true, [FsOp.access metaFilePath])
  | some metaContent =>
    match parseMeta metaContent with
    | none => (true, [FsOp.access metaFilePath, FsOp.read metaFilePath])
    | some metadata =>
      match fs.mtime sourcePath with
      | none => (true, [FsOp.access metaFilePath, FsOp.read metaFilePath,
                        FsOp.stat sourcePath])
      | some mtimeMs =>
        (decide (mtimeMs > metadata.syncedAt),
         [FsOp.access metaFilePath, FsOp.read metaFilePath, FsOp.stat sourcePath])

/-- The boolean `shouldSync` answer. -/
def shouldSync (parseMeta : String → Option SessionMetadata) (fs : FileSys)
    (sourcePath metaFilePath : String) : Bool :=
  (shouldSyncT parseMeta fs sourcePath metaFilePath).1

/-! ## The single-file sync engine (syncer.ts `syncSingleFile`) -/

/-- Everything a `syncSingleFile` call produces: the returned
`SyncResult`, the filesystem afterwards, the trace of filesystem
operations it performed, and the `settings.lastSyncTime` write if one
happened.  (`pendingSyncs` is untouched by `syncSingleFile` in the
source, so it is not part of this state.) -/
structure SyncOutcome where
  result : SyncResult
  fs : FileSys
  trace : List FsOp
  lastSyncTime : Option Int

/-- `syncSingleFile` (syncer.ts lines 224-317), step for step:
re-entrancy guard on `syncInProgress`; `parseClaudePath`;
`getTargetPaths`; `shouldSync` (skip `'Already up to date'` when false);
`parseJsonlFile` (an unreadable source throws, caught by the outer
`catch` as an `error` result with `getErrorMessage`'s `ENOENT` text);
skip `'Empty JSONL file'` on zero entries; `generateMetadata`;
`ensureDirectory`; re-read the source and write its exact content to
the target `.jsonl`; write the stringified metadata sidecar; record
`settings.lastSyncTime = Date.now()`; answer with
`action: targetPaths.jsonlFile ? 'updated' : 'created'`.  The `finally`
removes the path from `syncInProgress` again, so that set is passed in
read-only. -/
def syncSingleFile (env : SyncEnv) (fs : FileSys) (syncInProgress : List String)
    (filePath : String) : SyncOutcome :=
  if filePath ∈ syncInProgress then
    { result := { success := false, sessionId := "", projectName := ""
                  action := SyncAction.skipped
                  message := some "Sync already in progress" }
      fs := fs, trace := [], lastSyncTime := none }
  else
    let parsedPath := parseClaudePath filePath
    let targetPaths := getTargetPaths env.vaultBasePath env.obsidianStoragePath parsedPath
    let sT := shouldSyncT env.parseMeta fs filePath targetPaths.metaFile
    if sT.1 = false then
      { result := { success := true, sessionId := parsedPath.sessionId
                    projectName := parsedPath.decodedProjectName
                    action := SyncAction.skipped
                    message := some "Already up to date" }
        fs := fs, trace := sT.2, lastSyncTime := none }
    else
      match fs.contents filePath with
      | none =>
        { result := { success := false, sessionId := "", projectName := ""
                      action := SyncAction.error
                      message := some "File or directory not found" }
          fs := fs, trace := sT.2 ++ [FsOp.read filePath], lastSyncTime := none }
      | some content =>
        let messages := parseJsonlFile env.parseLine content
        if messages.isEmpty then
          { result := { success := false, sessionId := parsedPath.sessionId
                        projectName := parsedPath.decodedProjectName
                        action := SyncAction.skipped
                        message := some "Empty JSONL file" }
            fs := fs, trace := sT.2 ++ [FsOp.read filePath], lastSyncTime := none }
        else
          let metadata := generateMetadata messages filePath parsedPath env.now
          let fs1 := fsWrite fs targetPaths.jsonlFile content env.now
          let fs2 := fsWrite fs1 targetPaths.metaFile (env.stringifyMeta metadata) env.now
          { result := { success := true, sessionId := parsedPath.sessionId
                        projectName := parsedPath.decodedProjectName
                        action := if targetPaths.jsonlFile ≠ "" then SyncAction.updated
                                  else SyncAction.created
                        message := none }
            fs := fs2
            trace := sT.2 ++ [FsOp.read filePath, FsOp.mkdir targetPaths.projectDir,
                              FsOp.read filePath, FsOp.write targetPaths.jsonlFile,
                              FsOp.write targetPaths.metaFile]
            lastSyncTime := some env.now }

/-- `successCount` of `triggerManualSync` (settings.ts line 265). -/
def manualSyncSuccessCount (results : List SyncResult) : Nat :=
  (results.filter (fun r => r.success)).length

/-- `errorCount` of `triggerManualSync` (settings.ts line 266): the
"failed" count of the `'succeeded, failed'` summary notice. -/
def manualSyncErrorCount (results : List SyncResult) : Nat :=
  (results.filter (fun r => !r.success)).length

/-! ## Debounce scheduler (syncer.ts `scheduleSyncWithDebounce`) -/

/-- The fixed debounce delay (syncer.ts line 136): 1000 ms. -/
def debounceDelay : Int := 1000

/-- Single-threaded event-loop semantics of `scheduleSyncWithDebounce`
for one watched path (`pendingSyncs` is keyed by path and timers of
distinct paths never interact): given the optional due time of the
path's outstanding timer and the sorted times of the remaining
create/modify events, return the times at which a sync actually
executes.  A timer due at `ft` fires iff the event loop reaches `ft`
before the next event; each event `clearTimeout`s the outstanding timer
and arms a new one due at `t + debounceDelay`. -/
def debounceFires (pending : Option Int) : List Int → List Int
  | [] =>
    match pending with
    | some ft => [ft]
    | none => []
  | t :: rest =>
    match pending with
    | some ft =>
      if ft ≤ t then ft :: debounceFires (some (t + debounceDelay)) rest
      else debounceFires (some (t + debounceDelay)) rest
    | none => debounceFires (some (t + debounceDelay)) rest

/-- Run a path's event sequence from the idle state. -/
def debounceRun (events : List Int) : List Int :=
  debounceFires none events

/-- A burst: each event is no earlier than its predecessor and strictly
within the debounce window after it. -/
def isBurst : Int → List Int → Prop
  | _, [] => True
  | a, b :: rest => a ≤ b ∧ b < a + debounceDelay ∧ isBurst b rest

instance : ∀ a l, Decidable (isBurst a l) := fun a l => by
  induction l generalizing a with
  | nil => exact isTrue trivial
  | cons b rest ih =>
    exact @instDecidableAnd _ _ inferInstance (@instDecidableAnd _ _ inferInstance (ih b))

/-- The last event time of a nonempty burst. -/
def lastEvent : Int → List Int → Int
  | a, [] => a
  | _, b :: rest => lastEvent b rest

/-! ## Helper lemmas about strings and paths -/

lemma string_append_cancel_left (a b c : String) (h : a ++ b = a ++ c) : b = c := by
  have hd : (a ++ b).data = (a ++ c).data := congrArg String.data h
  rw [String.data_append, String.data_append] at hd
  exact String.ext (List.append_cancel_left hd)

lemma string_append_ne_empty_right (a b : String) (hb : b ≠ "") : a ++ b ≠ "" := by
  intro h
  apply hb
  have hd : (a ++ b).data = ("" : String).data := congrArg String.data h
  rw [String.data_append] at hd
  have : b.data = [] := (List.append_eq_nil.mp hd).2
  exact String.ext this

lemma joinSegs_pair (p x : String) : joinSegs [p, x] = p ++ "/" ++ x := rfl

lemma pathJoin_ne_empty (parts : List String) : pathJoin parts ≠ "" := by
  unfold pathJoin
  simp only []
  split
  · decide
  · next h => exact h

lemma pathJoin_pair (p x : String) (hp : p ≠ "") (hx : x ≠ "") :
    pathJoin [p, x] = p ++ "/" ++ x := by
  unfold pathJoin
  simp only []
  have hf : List.filter (fun s => decide (s ≠ "")) [p, x] = [p, x] := by
    simp [List.filter, hp, hx]
  rw [hf, joinSegs_pair]
  have : p ++ "/" ++ x ≠ "" :=
    string_append_ne_empty_right (p ++ "/") x hx
  rw [if_neg this]

lemma targetPaths_jsonl_ne_meta (v s : String) (pp : ParsedClaudePath) :
    (getTargetPaths v s pp).jsonlFile ≠ (getTargetPaths v s pp).metaFile := by
  unfold getTargetPaths
  simp only []
  have hdir : pathJoin [v, s, sanitizeFileName pp.decodedProjectName] ≠ "" :=
    pathJoin_ne_empty _
  have h1 : pp.sessionId ++ ".jsonl" ≠ "" :=
    string_append_ne_empty_right _ _ (by decide)
  have h2 : pp.sessionId ++ ".meta.json" ≠ "" :=
    string_append_ne_empty_right _ _ (by decide)
  rw [pathJoin_pair _ _ hdir h1, pathJoin_pair _ _ hdir h2]
  intro h
  have h3 := string_append_cancel_left _ _ _ h
  have h4 := string_append_cancel_left _ _ _ h3
  exact absurd h4 (by decide)

/-- Claim C5: a sync that actually copies a file always reports action
`'updated'`, never `'created'`: the target `.jsonl` path built by
`getTargetPaths` is always a non-empty string (Node's `path.join` never
returns the empty string), so the truthiness test
`targetPaths.jsonlFile ? 'updated' : 'created'` on syncer.ts line 302
always takes the `'updated'` branch and the `'created'` branch is
unreachable. -/
theorem syncAction_never_created :
    (∀ (v s : String) (pp : ParsedClaudePath),
      (getTargetPaths v s pp).jsonlFile ≠ "") ∧
    (∀ (env : SyncEnv) (fs : FileSys) (ip : List String) (fp : String),
      (syncSingleFile env fs ip fp).result.action ≠ SyncAction.created) := by
  constructor
  · intro v s pp
    unfold getTargetPaths
    simp only []
    exact pathJoin_ne_empty _
  · intro env fs ip fp
    unfold syncSingleFile
    split
    · simp
    · simp only []
      split
      · simp
      · split
        · simp
        · split
          · simp
          · have hne : (getTargetPaths env.vaultBasePath env.obsidianStoragePath
                (parseClaudePath fp)).jsonlFile ≠ "" := by
              unfold getTargetPaths
              simp only []
              exact pathJoin_ne_empty _
            simp [hne]

/-! ## Concrete fixtures used by witnesses and counterexamples -/

/-- A sample parsed log entry. -/
def sampleMessage : ClaudeMessage :=
  { type := "user", uuid := "u1", sessionId := "s", timestamp := some 7
    gitBranch := none, version := none }

/-- A sample environment whose line parser accepts exactly the line
`L1`. -/
def sampleEnv : SyncEnv :=
  { vaultBasePath := "/v", obsidianStoragePath := "CC"
    parseMeta := fun _ => none
    parseLine := fun l => if l = "L1" then some sampleMessage else none
    stringifyMeta := fun _ => "META"
    now := 99 }

/-- A sample filesystem holding one one-line source log and no sidecar. -/
def sampleFs : FileSys :=
  { contents := fun p => if p = "/c/p/s.jsonl" then some "L1" else none
    mtime := fun p => if p = "/c/p/s.jsonl" then some 50 else none }

/-- Witness for `syncAction_never_created` at a concrete vault, store
and world. -/
theorem syncAction_never_created_witness :
    (getTargetPaths "/v" "CC" (parseClaudePath "/c/p/s.jsonl")).jsonlFile ≠ "" ∧
    (syncSingleFile sampleEnv sampleFs [] "/c/p/s.jsonl").result.action ≠
      SyncAction.created :=
  ⟨syncAction_never_created.1 "/v" "CC" (parseClaudePath "/c/p/s.jsonl"),
   syncAction_never_created.2 sampleEnv sampleFs [] "/c/p/s.jsonl"⟩

/-- Claim C2: `shouldSync` answers `true` exactly when the sidecar is
missing, or reading/parsing it fails, or the source's modification time
is strictly greater than the recorded `syncedAt`; with an intact sidecar
and equal times it answers `false`. -/
theorem shouldSync_iff (pm : String → Option SessionMetadata) (fs : FileSys)
    (sp mp : String) (mt : Int) (hstat : fs.mtime sp = some mt) :
    (shouldSync pm fs sp mp = true ↔
      fs.contents mp = none ∨
      (∃ mc, fs.contents mp = some mc ∧ pm mc = none) ∨
      (∃ mc md, fs.contents mp = some mc ∧ pm mc = some md ∧ md.syncedAt < mt)) ∧
    (∀ mc md, fs.contents mp = some mc → pm mc = some md →
      mt = md.syncedAt → shouldSync pm fs sp mp = false) := by
  constructor
  · cases hc : fs.contents mp with
    | none => simp [shouldSync, shouldSyncT, hc]
    | some mc =>
      cases hm : pm mc with
      | none => simp [shouldSync, shouldSyncT, hc, hm]
      | some md => simp [shouldSync, shouldSyncT, hc, hm, hstat]
  · intro mc md hmc hpm heq
    simp [shouldSync, shouldSyncT, hmc, hpm, hstat, heq]

/-- The sidecar record used by the `shouldSync_iff` witness. -/
def sampleSidecar : SessionMetadata :=
  { sessionId := "s", projectName := "p", projectPath := "p"
    messageCount := 1, firstTimestamp := 0, lastTimestamp := 0
    gitBranch := none, version := none, syncedAt := 50
    sourceFilePath := "/c/p/s.jsonl" }

/-- A sidecar parser accepting exactly the text `META`. -/
def sampleParseMeta : String → Option SessionMetadata :=
  fun s => if s = "META" then some sampleSidecar else none

/-- A filesystem whose sidecar is up to date with the source. -/
def sampleFsUpToDate : FileSys :=
  { contents := fun p =>
      if p = "/v/CC/p/s.meta.json" then some "META"
      else if p = "/c/p/s.jsonl" then some "" else none
    mtime := fun p => if p = "/c/p/s.jsonl" then some 50 else none }

/-- Witness for `shouldSync_iff`: a sidecar parsed with `syncedAt = 50`
and a source with modification time `50` yields `false`. -/
theorem shouldSync_iff_witness :
    shouldSync sampleParseMeta sampleFsUpToDate
      "/c/p/s.jsonl" "/v/CC/p/s.meta.json" = false :=
  (shouldSync_iff sampleParseMeta sampleFsUpToDate
      "/c/p/s.jsonl" "/v/CC/p/s.meta.json" 50
      (by simp [sampleFsUpToDate])).2 "META" sampleSidecar
    (by simp [sampleFsUpToDate]) (by simp [sampleParseMeta]) rfl

/-- Claim C7: a `syncSingleFile` call for a path already in the
`syncInProgress` set returns immediately as an unsuccessful skip with
message `'Sync already in progress'`, touches no file, changes nothing,
and leaves no record of the rejected attempt behind. -/
theorem syncSingleFile_reentrant_skip (env : SyncEnv) (fs : FileSys)
    (inProg : List String) (fp : String) (h : fp ∈ inProg) :
    syncSingleFile env fs inProg fp =
      { result := { success := false, sessionId := "", projectName := ""
                    action := SyncAction.skipped
                    message := some "Sync already in progress" }
        fs := fs, trace := [], lastSyncTime := none } := by
  unfold syncSingleFile
  rw [if_pos h]

/-- Witness for `syncSingleFile_reentrant_skip` at a concrete world. -/
theorem syncSingleFile_reentrant_skip_witness :
    syncSingleFile sampleEnv sampleFs ["/c/p/s.jsonl"] "/c/p/s.jsonl" =
      { result := { success := false, sessionId := "", projectName := ""
                    action := SyncAction.skipped
                    message := some "Sync already in progress" }
        fs := sampleFs, trace := [], lastSyncTime := none } :=
  syncSingleFile_reentrant_skip sampleEnv sampleFs ["/c/p/s.jsonl"] "/c/p/s.jsonl"
    (by simp)

/-- During a burst, the timer re-armed by the previous event is never
yet due when the next event arrives, so no sync fires mid-burst. -/
lemma debounceFires_burst (ts : List Int) : ∀ a : Int, isBurst a ts →
    debounceFires (some (a + debounceDelay)) ts =
      [lastEvent a ts + debounceDelay] := by
  induction ts with
  | nil => intro a _; rfl
  | cons b rest ih =>
    intro a h
    obtain ⟨hab, hlt, hburst⟩ := h
    have hnot : ¬ (a + debounceDelay ≤ b) := by omega
    show (if a + debounceDelay ≤ b
          then (a + debounceDelay) :: debounceFires (some (b + debounceDelay)) rest
          else debounceFires (some (b + debounceDelay)) rest) =
        [lastEvent a (b :: rest) + debounceDelay]
    rw [if_neg hnot]
    exact ih b hburst

/-- Claim C6: any burst of events for one path, each arriving within the
debounce window of its predecessor, executes exactly one sync, which
runs one debounce delay (1 second) after the last event of the burst:
every event cancels the outstanding timer and re-arms a fresh one. -/
theorem debounce_burst_single_fire (t : Int) (ts : List Int)
    (h : isBurst t ts) :
    debounceRun (t :: ts) = [lastEvent t ts + debounceDelay] := by
  unfold debounceRun debounceFires
  exact debounceFires_burst ts t h

/-- Witness for `debounce_burst_single_fire`: three events at 0 ms,
500 ms and 900 ms produce exactly one sync, at 1900 ms. -/
theorem debounce_burst_single_fire_witness :
    isBurst 0 [500, 900] ∧ debounceRun [0, 500, 900] = [1900] := by
  refine ⟨by decide, ?_⟩
  have h := debounce_burst_single_fire 0 [500, 900] (by decide)
  rw [show lastEvent 0 [500, 900] + debounceDelay = 1900 by decide] at h
  exact h

/-- Claim C9: `decodeProjectName` never throws — on a malformed
percent-encoding it returns the encoded segment unchanged; when decoding
succeeds it strips leading separators and turns every separator run into
`" - "`, answering the sentinel `'Unknown Project'` if nothing remains;
and the sample segment decodes as the specification's scenario says. -/
theorem decodeProjectName_spec :
    decodeProjectName "home%2Fuser%2Fproj" = "home - user - proj" ∧
    (∀ s : String, decodeURIComponentOpt s.data = none →
      decodeProjectName s = s) ∧
    (∀ (s : String) (d : List Char), decodeURIComponentOpt s.data = some d →
      decodeProjectName s =
        (if (sepRunsAux false (d.dropWhile isPathSep)).isEmpty
         then "Unknown Project"
         else ⟨sepRunsAux false (d.dropWhile isPathSep)⟩)) := by
  refine ⟨by decide, ?_, ?_⟩
  · intro s h
    unfold decodeProjectName
    rw [h]
  · intro s d h
    unfold decodeProjectName
    rw [h]

/-- Witness for `decodeProjectName_spec`: a lone `%` is malformed and
returned unchanged, and a segment of only separators maps to the
sentinel. -/
theorem decodeProjectName_spec_witness :
    decodeProjectName "%" = "%" ∧
    decodeProjectName "%2F%2F" = "Unknown Project" := by
  constructor
  · exact decodeProjectName_spec.2.1 "%" (by decide)
  · rw [decodeProjectName_spec.2.2 "%2F%2F" ['/', '/'] (by decide)]
    decide


/-- Claim C10: among the outcomes of `syncSingleFile`, only the skip
`'Already up to date'` carries `success = true`; `'Empty JSONL file'`
and `'Sync already in progress'` carry `success = false`, so an empty
source file is counted on the failed side of `triggerManualSync`'s
succeeded/failed summary. -/
theorem syncResult_success_flags (env : SyncEnv) (fs : FileSys)
    (ip : List String) (fp : String) :
    ((syncSingleFile env fs ip fp).result.message = some "Already up to date" →
      (syncSingleFile env fs ip fp).result.success = true) ∧
    ((syncSingleFile env fs ip fp).result.message = some "Empty JSONL file" →
      (syncSingleFile env fs ip fp).result.success = false) ∧
    ((syncSingleFile env fs ip fp).result.message = some "Sync already in progress" →
      (syncSingleFile env fs ip fp).result.success = false) ∧
    (∀ rs : List SyncResult, (syncSingleFile env fs ip fp).result ∈ rs →
      (syncSingleFile env fs ip fp).result.message = some "Empty JSONL file" →
      1 ≤ manualSyncErrorCount rs) := by
  unfold syncSingleFile
  split
  · refine ⟨by simp, by simp, by simp, ?_⟩
    intro rs hmem hmsg
    simp at hmsg
  · simp only []
    split
    · refine ⟨by simp, by simp, by simp, ?_⟩
      intro rs hmem hmsg
      simp at hmsg
    · split
      · refine ⟨by simp, by simp, by simp, ?_⟩
        intro rs hmem hmsg
        simp at hmsg
      · split
        · refine ⟨by simp, by simp, by simp, ?_⟩
          intro rs hmem hmsg
          unfold manualSyncErrorCount
          exact List.length_pos.mpr
            (List.ne_nil_of_mem (List.mem_filter.mpr ⟨hmem, rfl⟩))
        · refine ⟨by simp, by simp, by simp, ?_⟩
          intro rs hmem hmsg
          simp at hmsg

/-- A filesystem with an empty source log and no sidecar, so a sync of
it is needed but skips with `'Empty JSONL file'`. -/
def sampleFsEmptyLog : FileSys :=
  { contents := fun p => if p = "/c/p/s.jsonl" then some "" else none
    mtime := fun p => if p = "/c/p/s.jsonl" then some 50 else none }

/-- Witness for `syncResult_success_flags`: the empty-log skip is
unsuccessful and counts as a failure in a one-element summary. -/
theorem syncResult_success_flags_witness :
    (syncSingleFile sampleEnv sampleFsEmptyLog [] "/c/p/s.jsonl").result.success
      = false ∧
    1 ≤ manualSyncErrorCount
      [(syncSingleFile sampleEnv sampleFsEmptyLog [] "/c/p/s.jsonl").result] := by
  constructor
  · exact (syncResult_success_flags sampleEnv sampleFsEmptyLog [] "/c/p/s.jsonl").2.1
      (by decide)
  · exact (syncResult_success_flags sampleEnv sampleFsEmptyLog [] "/c/p/s.jsonl").2.2.2
      _ (by simp) (by decide)

/-! ## Helper lemmas for the metadata builder -/

lemma parseJsonlLines_length (pl : String → Option ClaudeMessage)
    (lines : List String) :
    (parseJsonlLines pl lines).length =
      (lines.filter (fun l => decide (jsTrim l ≠ "") && (pl l).isSome)).length := by
  induction lines with
  | nil => rfl
  | cons l rest ih =>
    unfold parseJsonlLines at ih ⊢
    by_cases h : jsTrim l = ""
    · simp [List.filterMap_cons, List.filter_cons, h, ih]
    · cases hp : pl l with
      | none => simp [List.filterMap_cons, List.filter_cons, h, hp, ih]
      | some m => simp [List.filterMap_cons, List.filter_cons, h, hp, ih]

lemma listMin_mem (rest : List Int) : ∀ t : Int, listMin t rest ∈ t :: rest := by
  induction rest with
  | nil => intro t; simp [listMin]
  | cons u rest ih =>
    intro t
    have h := ih (min t u)
    show listMin (min t u) rest ∈ t :: u :: rest
    rcases List.mem_cons.mp h with h1 | h1
    · rcases min_choice t u with hm | hm
      · rw [h1, hm]; simp
      · rw [h1, hm]; simp
    · simp [h1]

lemma listMin_le (rest : List Int) : ∀ t x : Int, x ∈ t :: rest →
    listMin t rest ≤ x := by
  induction rest with
  | nil =>
    intro t x hx
    rcases List.mem_cons.mp hx with h | h
    · rw [h]; exact le_refl _
    · exact absurd h (List.not_mem_nil x)
  | cons u rest ih =>
    intro t x hx
    show listMin (min t u) rest ≤ x
    rcases List.mem_cons.mp hx with h | h
    · calc listMin (min t u) rest ≤ min t u :=
            ih (min t u) (min t u) (List.mem_cons_self _ _)
        _ ≤ t := min_le_left t u
        _ = x := h.symm
    · rcases List.mem_cons.mp h with h1 | h1
      · calc listMin (min t u) rest ≤ min t u :=
              ih (min t u) (min t u) (List.mem_cons_self _ _)
          _ ≤ u := min_le_right t u
          _ = x := h1.symm
      · exact ih (min t u) x (List.mem_cons_of_mem _ h1)

lemma listMax_mem (rest : List Int) : ∀ t : Int, listMax t rest ∈ t :: rest := by
  induction rest with
  | nil => intro t; simp [listMax]
  | cons u rest ih =>
    intro t
    have h := ih (max t u)
    show listMax (max t u) rest ∈ t :: u :: rest
    rcases List.mem_cons.mp h with h1 | h1
    · rcases max_choice t u with hm | hm
      · rw [h1, hm]; simp
      · rw [h1, hm]; simp
    · simp [h1]

lemma listMax_ge (rest : List Int) : ∀ t x : Int, x ∈ t :: rest →
    x ≤ listMax t rest := by
  induction rest with
  | nil =>
    intro t x hx
    rcases List.mem_cons.mp hx with h | h
    · rw [h]; exact le_refl _
    · exact absurd h (List.not_mem_nil x)
  | cons u rest ih =>
    intro t x hx
    show x ≤ listMax (max t u) rest
    rcases List.mem_cons.mp hx with h | h
    · calc x = t := h
        _ ≤ max t u := le_max_left t u
        _ ≤ listMax (max t u) rest :=
            ih (max t u) (max t u) (List.mem_cons_self _ _)
    · rcases List.mem_cons.mp h with h1 | h1
      · calc x = u := h1
          _ ≤ max t u := le_max_right t u
          _ ≤ listMax (max t u) rest :=
              ih (max t u) (max t u) (List.mem_cons_self _ _)
      · exact ih (max t u) x (List.mem_cons_of_mem _ h1)

/-- Claim C8: for the entries produced by the parser, the built metadata
counts exactly the lines that parsed successfully (blank and malformed
lines are skipped without aborting); `firstTimestamp`/`lastTimestamp`
are the minimum/maximum of the timestamps present on entries (entries
without one are counted but excluded); and when no entry carries a
timestamp both default to the build time `now`. -/
theorem generateMetadata_spec (pl : String → Option ClaudeMessage)
    (content sourcePath : String) (pp : ParsedClaudePath) (now : Int)
    (msgs : List ClaudeMessage) (ts : List Int)
    (hmsgs : msgs = parseJsonlFile pl content)
    (hts : ts = msgs.filterMap (fun m => m.timestamp)) :
    (generateMetadata msgs sourcePath pp now).messageCount =
      ((splitLines content).filter
        (fun l => decide (jsTrim l ≠ "") && (pl l).isSome)).length ∧
    (ts = [] →
      (generateMetadata msgs sourcePath pp now).firstTimestamp = now ∧
      (generateMetadata msgs sourcePath pp now).lastTimestamp = now) ∧
    (ts ≠ [] →
      (generateMetadata msgs sourcePath pp now).firstTimestamp ∈ ts ∧
      (generateMetadata msgs sourcePath pp now).lastTimestamp ∈ ts) ∧
    (∀ t ∈ ts,
      (generateMetadata msgs sourcePath pp now).firstTimestamp ≤ t ∧
      t ≤ (generateMetadata msgs sourcePath pp now).lastTimestamp) := by
  refine ⟨?_, ?_, ?_, ?_⟩
  · show msgs.length = _
    rw [hmsgs]
    exact parseJsonlLines_length pl (splitLines content)
  · intro hempty
    unfold generateMetadata
    rw [← hts, hempty]
    exact ⟨rfl, rfl⟩
  · intro hne
    unfold generateMetadata
    rw [← hts]
    cases hcase : ts with
    | nil => exact absurd hcase hne
    | cons t rest =>
      exact ⟨listMin_mem rest t, listMax_mem rest t⟩
  · intro t ht
    unfold generateMetadata
    rw [← hts]
    cases hcase : ts with
    | nil => rw [hcase] at ht; exact absurd ht (List.not_mem_nil t)
    | cons u rest =>
      rw [hcase] at ht
      exact ⟨listMin_le rest u t ht, listMax_ge rest u t ht⟩

/-- A second sample entry, with timestamp 9. -/
def sampleMessage3 : ClaudeMessage :=
  { type := "assistant", uuid := "u3", sessionId := "s", timestamp := some 9
    gitBranch := none, version := none }

/-- A line parser for the specification's malformed-line scenario: it
accepts the first and third lines and rejects `BAD`. -/
def sampleScenarioParse : String → Option ClaudeMessage :=
  fun l =>
    if l = "L1" then some sampleMessage
    else if l = "L3" then some sampleMessage3
    else none

/-- Witness for `generateMetadata_spec`: the specification's malformed
scenario, a three-line file whose second line is invalid, yields
`messageCount = 2` (checked through the theorem's count equation), and
the timestamp bounds hold for the two parsed entries. -/
theorem generateMetadata_spec_witness :
    (generateMetadata (parseJsonlFile sampleScenarioParse "L1\nBAD\nL3")
      "/c/p/s.jsonl" (parseClaudePath "/c/p/s.jsonl") 99).messageCount = 2 ∧
    (generateMetadata (parseJsonlFile sampleScenarioParse "L1\nBAD\nL3")
      "/c/p/s.jsonl" (parseClaudePath "/c/p/s.jsonl") 99).firstTimestamp ∈
      ((parseJsonlFile sampleScenarioParse "L1\nBAD\nL3").filterMap
        (fun m => m.timestamp)) := by
  have h := generateMetadata_spec sampleScenarioParse "L1\nBAD\nL3" "/c/p/s.jsonl"
    (parseClaudePath "/c/p/s.jsonl") 99
    (parseJsonlFile sampleScenarioParse "L1\nBAD\nL3")
    ((parseJsonlFile sampleScenarioParse "L1\nBAD\nL3").filterMap
      (fun m => m.timestamp)) rfl rfl
  constructor
  · rw [h.1]
    decide
  · exact (h.2.2.1 (by decide)).1

/-- Claim C1: whenever a single-file sync is neither skipped nor
errored (i.e. it actually copies), the destination `.jsonl` afterwards
holds exactly the source file's content: the engine re-reads the
original file and writes that very string, so parse failures cannot
alter the copy. -/
theorem syncSingleFile_copies_source (env : SyncEnv) (fs : FileSys)
    (ip : List String) (fp : String) :
    (syncSingleFile env fs ip fp).result.action ≠ SyncAction.skipped →
    (syncSingleFile env fs ip fp).result.action ≠ SyncAction.error →
    (syncSingleFile env fs ip fp).fs.contents
        (getTargetPaths env.vaultBasePath env.obsidianStoragePath
          (parseClaudePath fp)).jsonlFile
      = fs.contents fp := by
  unfold syncSingleFile
  split
  · intro hskip _
    exact absurd rfl hskip
  · simp only []
    split
    · intro hskip _
      exact absurd rfl hskip
    · split
      · intro _ herr
        exact absurd rfl herr
      · rename_i content heq
        split
        · intro hskip _
          exact absurd rfl hskip
        · intro _ _
          have hne := targetPaths_jsonl_ne_meta env.vaultBasePath
            env.obsidianStoragePath (parseClaudePath fp)
          simp [fsWrite, hne]
          exact heq.symm

/-- Witness for `syncSingleFile_copies_source`: a concrete sync of a
one-line log lands its exact content at the destination. -/
theorem syncSingleFile_copies_source_witness :
    (syncSingleFile sampleEnv sampleFs [] "/c/p/s.jsonl").fs.contents
        (getTargetPaths "/v" "CC" (parseClaudePath "/c/p/s.jsonl")).jsonlFile
      = sampleFs.contents "/c/p/s.jsonl" :=
  syncSingleFile_copies_source sampleEnv sampleFs [] "/c/p/s.jsonl"
    (by decide) (by decide)

/-- The environment for the up-to-date scenario: the sidecar text
`META` parses to a record with `syncedAt = 50`. -/
def sampleEnvUpToDate : SyncEnv :=
  { sampleEnv with parseMeta := sampleParseMeta }

/-- Counterexample to claim C3 as stated: with an up-to-date sidecar,
`syncSingleFile` reports the skip `'Already up to date'` for a source
whose content parses to zero entries — the staleness check runs before
the parse, so this skip is not restricted to files with at least one
entry. -/
theorem syncSingleFile_upToDate_skip_zero_entries :
    (syncSingleFile sampleEnvUpToDate sampleFsUpToDate [] "/c/p/s.jsonl").result.action
      = SyncAction.skipped ∧
    (syncSingleFile sampleEnvUpToDate sampleFsUpToDate [] "/c/p/s.jsonl").result.message
      = some "Already up to date" ∧
    parseJsonlFile sampleEnvUpToDate.parseLine "" = [] ∧
    sampleFsUpToDate.contents "/c/p/s.jsonl" = some "" := by
  decide

/-- Claim C3 amended: in a single-file sync the staleness check runs
first; when it reports up to date the sync returns the skip
`'Already up to date'` having performed only the staleness check's own
reads (the source is never parsed, so this skip can occur for a file
with zero entries); only when sync is needed is the source parsed, and
a zero-entry file is then reported as the skip `'Empty JSONL file'`
before metadata is built or anything is written. -/
theorem syncSingleFile_staleness_first (env : SyncEnv) (fs : FileSys)
    (ip : List String) (fp : String) (h : fp ∉ ip) :
    (shouldSync env.parseMeta fs fp
        (getTargetPaths env.vaultBasePath env.obsidianStoragePath
          (parseClaudePath fp)).metaFile = false →
      (syncSingleFile env fs ip fp).result.action = SyncAction.skipped ∧
      (syncSingleFile env fs ip fp).result.message = some "Already up to date" ∧
      (syncSingleFile env fs ip fp).trace =
        (shouldSyncT env.parseMeta fs fp
          (getTargetPaths env.vaultBasePath env.obsidianStoragePath
            (parseClaudePath fp)).metaFile).2 ∧
      (syncSingleFile env fs ip fp).fs = fs) ∧
    ((syncSingleFile env fs ip fp).result.message = some "Empty JSONL file" →
      shouldSync env.parseMeta fs fp
        (getTargetPaths env.vaultBasePath env.obsidianStoragePath
          (parseClaudePath fp)).metaFile = true ∧
      (syncSingleFile env fs ip fp).fs = fs ∧
      (syncSingleFile env fs ip fp).lastSyncTime = none) := by
  unfold shouldSync syncSingleFile
  rw [if_neg h]
  simp only []
  split
  · constructor
    · intro _
      exact ⟨rfl, rfl, rfl, rfl⟩
    · intro hmsg
      simp at hmsg
  · rename_i hc
    constructor
    · intro hfalse
      exact absurd hfalse hc
    · split
      · intro hmsg
        simp at hmsg
      · split
        · intro _
          refine ⟨?_, rfl, rfl⟩
          cases hb : (shouldSyncT env.parseMeta fs fp
              (getTargetPaths env.vaultBasePath env.obsidianStoragePath
                (parseClaudePath fp)).metaFile).1 with
          | false => exact absurd hb hc
          | true => rfl
        · intro hmsg
          simp at hmsg

/-- Witness for `syncSingleFile_staleness_first`: an empty source log
with no sidecar reaches the `'Empty JSONL file'` skip only because the
staleness check answered `true`, and nothing is written. -/
theorem syncSingleFile_staleness_first_witness :
    shouldSync sampleEnv.parseMeta sampleFsEmptyLog "/c/p/s.jsonl"
      (getTargetPaths "/v" "CC" (parseClaudePath "/c/p/s.jsonl")).metaFile = true ∧
    (syncSingleFile sampleEnv sampleFsEmptyLog [] "/c/p/s.jsonl").fs
      = sampleFsEmptyLog ∧
    (syncSingleFile sampleEnv sampleFsEmptyLog [] "/c/p/s.jsonl").lastSyncTime
      = none :=
  (syncSingleFile_staleness_first sampleEnv sampleFsEmptyLog [] "/c/p/s.jsonl"
    (by simp)).2 (by decide)

/-! ## Sanitizer analysis: shape of `sanitizeFileName`'s output -/

/-- No character of `l` is in the sanitizer's illegal class. -/
def NoIllegal (l : List Char) : Prop :=
  ∀ c ∈ l, isIllegalChar c = false

/-- Every whitespace character of `l` is a plain space. -/
def AllWSSpace (l : List Char) : Prop :=
  ∀ c ∈ l, jsWhitespace c = true → c = ' '

/-- No two adjacent characters of `l` are both whitespace. -/
def noTwoAdjWS : List Char → Bool
  | [] => true
  | a :: rest => (!(jsWhitespace a && headIsWS rest)) && noTwoAdjWS rest

lemma isIllegal_replaceIllegal (c : Char) :
    isIllegalChar (replaceIllegal c) = false := by
  unfold replaceIllegal
  split
  · decide
  · next h => simp at h; exact h

lemma replaceIllegal_eq_self (c : Char) (h : isIllegalChar c = false) :
    replaceIllegal c = c := by
  unfold replaceIllegal
  rw [h]
  rfl

lemma mem_collapseWSAux (l : List Char) : ∀ (b : Bool) (c : Char),
    c ∈ collapseWSAux b l → c ∈ l ∨ c = ' ' := by
  induction l with
  | nil => intro b c h; exact absurd h (List.not_mem_nil c)
  | cons a rest ih =>
    intro b c h
    unfold collapseWSAux at h
    by_cases hws : jsWhitespace a
    · rw [if_pos hws] at h
      cases b with
      | true =>
        rw [if_pos rfl] at h
        rcases ih true c h with h1 | h1
        · exact Or.inl (List.mem_cons_of_mem a h1)
        · exact Or.inr h1
      | false =>
        rw [if_neg (by simp)] at h
        rcases List.mem_cons.mp h with h1 | h1
        · exact Or.inr h1
        · rcases ih true c h1 with h2 | h2
          · exact Or.inl (List.mem_cons_of_mem a h2)
          · exact Or.inr h2
    · rw [if_neg hws] at h
      rcases List.mem_cons.mp h with h1 | h1
      · exact Or.inl (h1 ▸ List.mem_cons_self a rest)
      · rcases ih false c h1 with h2 | h2
        · exact Or.inl (List.mem_cons_of_mem a h2)
        · exact Or.inr h2

lemma mem_dropTrailingWS (l : List Char) : ∀ c, c ∈ dropTrailingWS l → c ∈ l := by
  induction l with
  | nil => intro c h; exact absurd h (List.not_mem_nil c)
  | cons a rest ih =>
    intro c h
    unfold dropTrailingWS at h
    cases hr : dropTrailingWS rest with
    | nil =>
      rw [hr] at h
      by_cases hws : jsWhitespace a
      · rw [if_pos hws] at h
        exact absurd h (List.not_mem_nil c)
      · rw [if_neg hws] at h
        rcases List.mem_cons.mp h with h1 | h1
        · exact h1 ▸ List.mem_cons_self a rest
        · exact absurd h1 (List.not_mem_nil c)
    | cons x xs =>
      rw [hr] at h
      rcases List.mem_cons.mp h with h1 | h1
      · exact h1 ▸ List.mem_cons_self a rest
      · exact List.mem_cons_of_mem a (ih c (hr ▸ h1))

lemma mem_dropWhileWS (l : List Char) : ∀ c, c ∈ l.dropWhile jsWhitespace → c ∈ l := by
  induction l with
  | nil => intro c h; exact h
  | cons a rest ih =>
    intro c h
    rw [List.dropWhile_cons] at h
    by_cases hws : jsWhitespace a
    · rw [if_pos (by simp [hws])] at h
      exact List.mem_cons_of_mem a (ih c h)
    · rw [if_neg (by simp [hws])] at h
      exact h

lemma mem_jsTrimChars (l : List Char) (c : Char) (h : c ∈ jsTrimChars l) : c ∈ l :=
  mem_dropWhileWS l c (mem_dropTrailingWS _ c h)

lemma mem_take_of_mem (l : List Char) (n : Nat) (c : Char) (h : c ∈ l.take n) :
    c ∈ l :=
  List.take_subset n l h

lemma noIllegal_map_replaceIllegal (l : List Char) :
    NoIllegal (l.map replaceIllegal) := by
  intro c hc
  rcases List.mem_map.mp hc with ⟨a, _, ha⟩
  exact ha ▸ isIllegal_replaceIllegal a

lemma map_replaceIllegal_eq_self : ∀ l : List Char, NoIllegal l →
    l.map replaceIllegal = l := by
  intro l
  induction l with
  | nil => intro _; rfl
  | cons a rest ih =>
    intro h
    rw [List.map_cons]
    rw [replaceIllegal_eq_self a (h a (List.mem_cons_self a rest))]
    rw [ih (fun c hc => h c (List.mem_cons_of_mem a hc))]

lemma collapseWSAux_inv : ∀ (l : List Char) (b : Bool),
    AllWSSpace (collapseWSAux b l) ∧ noTwoAdjWS (collapseWSAux b l) = true ∧
    (b = true → headIsWS (collapseWSAux b l) = false) := by
  intro l
  induction l with
  | nil =>
    intro b
    exact ⟨fun c hc => absurd hc (List.not_mem_nil c), rfl, fun _ => rfl⟩
  | cons a rest ih =>
    intro b
    unfold collapseWSAux
    by_cases hws : jsWhitespace a
    · rw [if_pos hws]
      cases b with
      | true =>
        rw [if_pos rfl]
        exact ih true
      | false =>
        rw [if_neg (by simp)]
        obtain ⟨ha, hn, hh⟩ := ih true
        refine ⟨?_, ?_, fun hb => absurd hb (by decide)⟩
        · intro c hc _
          rcases List.mem_cons.mp hc with h1 | h1
          · exact h1
          · exact ha c h1 (by assumption)
        · show ((!(jsWhitespace ' ' && headIsWS (collapseWSAux true rest))) &&
            noTwoAdjWS (collapseWSAux true rest)) = true
          rw [hh rfl, hn]
          simp
    · rw [if_neg hws]
      obtain ⟨ha, hn, _⟩ := ih false
      refine ⟨?_, ?_, fun _ => ?_⟩
      · intro c hc hcw
        rcases List.mem_cons.mp hc with h1 | h1
        · subst h1
          exact absurd hcw hws
        · exact ha c h1 hcw
      · show ((!(jsWhitespace a && headIsWS (collapseWSAux false rest))) &&
          noTwoAdjWS (collapseWSAux false rest)) = true
        have haf : jsWhitespace a = false := by simpa using hws
        rw [haf, hn]
        simp
      · show jsWhitespace a = false
        simpa using hws

lemma collapseWSAux_fix : ∀ (l : List Char) (b : Bool),
    AllWSSpace l → noTwoAdjWS l = true → (b = true → headIsWS l = false) →
    collapseWSAux b l = l := by
  intro l
  induction l with
  | nil => intro b _ _ _; rfl
  | cons a rest ih =>
    intro b hall hadj hhead
    obtain ⟨h1, h2⟩ := Bool.and_eq_true_iff.mp hadj
    unfold collapseWSAux
    by_cases hws : jsWhitespace a
    · have ha : a = ' ' := hall a (List.mem_cons_self a rest) hws
      cases b with
      | true =>
        have hcontra := hhead rfl
        show (if jsWhitespace a = true then _ else _) = _
        rw [show headIsWS (a :: rest) = jsWhitespace a from rfl] at hcontra
        rw [hws] at hcontra
        exact absurd hcontra (by decide)
      | false =>
        rw [if_pos hws, if_neg (by decide)]
        rw [ha]
        congr 1
        apply ih true
        · intro c hc hcw
          exact hall c (List.mem_cons_of_mem a hc) hcw
        · exact h2
        · intro _
          rw [hws] at h1
          simpa using h1
    · rw [if_neg hws]
      congr 1
      apply ih false
      · intro c hc hcw
        exact hall c (List.mem_cons_of_mem a hc) hcw
      · exact h2
      · intro hb
        exact absurd hb (by decide)

lemma headIsWS_dropWhileWS : ∀ l : List Char,
    headIsWS (l.dropWhile jsWhitespace) = false := by
  intro l
  induction l with
  | nil => rfl
  | cons a rest ih =>
    rw [List.dropWhile_cons]
    by_cases hws : jsWhitespace a
    · rw [if_pos (by simp [hws])]
      exact ih
    · rw [if_neg (by simp [hws])]
      show jsWhitespace a = false
      simpa using hws

lemma dropWhileWS_eq_self (l : List Char) (h : headIsWS l = false) :
    l.dropWhile jsWhitespace = l := by
  cases l with
  | nil => rfl
  | cons a rest =>
    rw [List.dropWhile_cons]
    rw [if_neg (by simp [show jsWhitespace a = false from h])]

lemma dropTrailingWS_shape (l : List Char) (x : Char) (xs : List Char)
    (h : dropTrailingWS l = x :: xs) : ∃ ys, l = x :: ys := by
  cases l with
  | nil => exact absurd h (by simp [dropTrailingWS])
  | cons a rest =>
    unfold dropTrailingWS at h
    cases hr : dropTrailingWS rest with
    | nil =>
      rw [hr] at h
      by_cases hws : jsWhitespace a
      · rw [if_pos hws] at h
        exact absurd h (by simp)
      · rw [if_neg hws] at h
        exact ⟨rest, by rw [(List.cons.injEq _ _ _ _).mp h |>.1]⟩
    | cons y ys =>
      rw [hr] at h
      exact ⟨rest, by rw [(List.cons.injEq _ _ _ _).mp h |>.1]⟩

lemma headIsWS_dropTrailingWS (l : List Char) (h : headIsWS l = false) :
    headIsWS (dropTrailingWS l) = false := by
  cases hr : dropTrailingWS l with
  | nil => rfl
  | cons x xs =>
    obtain ⟨ys, hy⟩ := dropTrailingWS_shape l x xs hr
    show jsWhitespace x = false
    rw [hy] at h
    exact h

lemma noTwoAdjWS_tail (a : Char) (l : List Char)
    (h : noTwoAdjWS (a :: l) = true) : noTwoAdjWS l = true :=
  (Bool.and_eq_true_iff.mp h).2

lemma noTwoAdjWS_dropWhileWS : ∀ l : List Char, noTwoAdjWS l = true →
    noTwoAdjWS (l.dropWhile jsWhitespace) = true := by
  intro l
  induction l with
  | nil => intro h; exact h
  | cons a rest ih =>
    intro h
    rw [List.dropWhile_cons]
    by_cases hws : jsWhitespace a
    · rw [if_pos (by simp [hws])]
      exact ih (noTwoAdjWS_tail a rest h)
    · rw [if_neg (by simp [hws])]
      exact h

lemma noTwoAdjWS_dropTrailingWS : ∀ l : List Char, noTwoAdjWS l = true →
    noTwoAdjWS (dropTrailingWS l) = true := by
  intro l
  induction l with
  | nil => intro h; exact h
  | cons a rest ih =>
    intro h
    obtain ⟨h1, h2⟩ := Bool.and_eq_true_iff.mp h
    unfold dropTrailingWS
    cases hr : dropTrailingWS rest with
    | nil =>
      by_cases hws : jsWhitespace a
      · rw [if_pos hws]
        rfl
      · rw [if_neg hws]
        show ((!(jsWhitespace a && headIsWS ([] : List Char))) &&
          noTwoAdjWS ([] : List Char)) = true
        simp [headIsWS, noTwoAdjWS]
    | cons x xs =>
      obtain ⟨ys, hy⟩ := dropTrailingWS_shape rest x xs hr
      have hd := ih h2
      rw [hr] at hd
      show ((!(jsWhitespace a && headIsWS (x :: xs))) && noTwoAdjWS (x :: xs)) = true
      rw [hy] at h1
      exact Bool.and_eq_true_iff.mpr ⟨h1, hd⟩

lemma headIsWS_take (l : List Char) (n : Nat) (h : headIsWS l = false) :
    headIsWS (l.take n) = false := by
  cases l with
  | nil => simp [headIsWS]
  | cons a rest =>
    cases n with
    | zero => rfl
    | succ m => exact h

lemma noTwoAdjWS_take : ∀ (l : List Char) (n : Nat), noTwoAdjWS l = true →
    noTwoAdjWS (l.take n) = true := by
  intro l
  induction l with
  | nil => intro n h; simpa using h
  | cons a rest ih =>
    intro n h
    obtain ⟨h1, h2⟩ := Bool.and_eq_true_iff.mp h
    cases n with
    | zero => rfl
    | succ m =>
      rw [List.take_succ_cons]
      show ((!(jsWhitespace a && headIsWS (rest.take m))) &&
        noTwoAdjWS (rest.take m)) = true
      refine Bool.and_eq_true_iff.mpr ⟨?_, ih m h2⟩
      cases rest with
      | nil => simp [headIsWS]
      | cons x ys =>
        cases m with
        | zero => simp [headIsWS]
        | succ k => exact h1

lemma dropTrailingWS_eq_self : ∀ l : List Char, lastIsWS l = false →
    dropTrailingWS l = l := by
  intro l
  induction l with
  | nil => intro _; rfl
  | cons a rest ih =>
    intro h
    cases rest with
    | nil =>
      show (if jsWhitespace a then [] else [a]) = [a]
      rw [if_neg (by simp [show jsWhitespace a = false from h])]
    | cons b rest2 =>
      have hr := ih h
      unfold dropTrailingWS
      rw [hr]

/-- Everything `sanitizeFileName` outputs is a fixpoint of another pass,
except that truncation at 255 may expose a trailing space which the next
pass trims away. -/
lemma sanitizeChars_idem (d : List Char)
    (h : lastIsWS (sanitizeChars d) = false) :
    sanitizeChars (sanitizeChars d) = sanitizeChars d := by
  have hexp : sanitizeChars d =
      (jsTrimChars (collapseWSAux false (d.map replaceIllegal))).take 255 := rfl
  have key : ∀ y : List Char, NoIllegal y → AllWSSpace y → noTwoAdjWS y = true →
      headIsWS y = false → lastIsWS y = false →
      (∃ t : List Char, y = t.take 255) → sanitizeChars y = y := by
    intro y hIll hAll hAdj hHead hLast hEx
    obtain ⟨t, htk⟩ := hEx
    unfold sanitizeChars
    rw [map_replaceIllegal_eq_self y hIll]
    rw [collapseWSAux_fix y false hAll hAdj (fun hb => absurd hb (by decide))]
    unfold jsTrimChars
    rw [dropWhileWS_eq_self y hHead]
    rw [dropTrailingWS_eq_self y hLast]
    rw [htk, List.take_take]
    simp
  refine key (sanitizeChars d) ?_ ?_ ?_ ?_ h ⟨_, hexp⟩
  · intro c hc
    rw [hexp] at hc
    have hc1 : c ∈ collapseWSAux false (d.map replaceIllegal) :=
      mem_jsTrimChars _ c (mem_take_of_mem _ 255 c hc)
    rcases mem_collapseWSAux _ false c hc1 with h1 | h1
    · exact noIllegal_map_replaceIllegal d c h1
    · rw [h1]; decide
  · intro c hc hw
    rw [hexp] at hc
    exact (collapseWSAux_inv (d.map replaceIllegal) false).1 c
      (mem_jsTrimChars _ c (mem_take_of_mem _ 255 c hc)) hw
  · rw [hexp]
    exact noTwoAdjWS_take _ 255 (noTwoAdjWS_dropTrailingWS _
      (noTwoAdjWS_dropWhileWS _ (collapseWSAux_inv (d.map replaceIllegal) false).2.1))
  · rw [hexp]
    exact headIsWS_take _ 255 (headIsWS_dropTrailingWS _ (headIsWS_dropWhileWS _))

set_option maxRecDepth 4000 in
/-- Counterexample to claim C4 as stated: for 254 letters followed by
`" b"`, sanitizing once gives 254 letters and a trailing space (the
truncation to 255 cuts after the space), and sanitizing again trims that
space, so the sanitizer is not idempotent at the truncation limit. -/
theorem sanitizeFileName_not_idempotent :
    sanitizeFileName (sanitizeFileName
        (String.mk (List.replicate 254 'a' ++ [' ', 'b'])))
      ≠ sanitizeFileName (String.mk (List.replicate 254 'a' ++ [' ', 'b'])) := by
  decide

/-- Claim C4 amended: `sanitizeFileName` is idempotent on every input
whose sanitized form does not end in a whitespace character — the only
failures are inputs whose sanitized form is cut at exactly 255
characters right after a space, as in `sanitizeFileName_not_idempotent`. -/
theorem sanitizeFileName_idem_unless_trailing_ws (s : String)
    (h : lastIsWS (sanitizeFileName s).data = false) :
    sanitizeFileName (sanitizeFileName s) = sanitizeFileName s := by
  show (⟨sanitizeChars (sanitizeChars s.data)⟩ : String) = ⟨sanitizeChars s.data⟩
  exact congrArg String.mk (sanitizeChars_idem s.data h)

/-- Witness for `sanitizeFileName_idem_unless_trailing_ws` at a concrete
input containing an illegal character and a double space. -/
theorem sanitizeFileName_idem_unless_trailing_ws_witness :
    lastIsWS (sanitizeFileName "a  b<").data = false ∧
    sanitizeFileName (sanitizeFileName "a  b<") = sanitizeFileName "a  b<" :=
  ⟨by decide, sanitizeFileName_idem_unless_trailing_ws "a  b<" (by decide)⟩
